import Mathlib

/-!
Verification of `src/mushroom/utils/replay_memory.py`.

The file shallowly embeds the three classes of the source file —
`ReplayMemory`, `SumTree` and `PrioritizedReplayMemory` — and proves
properties of the embedding.  Conventions:

* Python floats are modelled as exact rationals (`ℚ`); the importance
  weights of `PrioritizedReplayMemory.get`, which use a real-valued power
  `x ** (-beta)`, are modelled over `ℝ` with `Real.rpow`.
* `queue.Queue` is modelled by `PyQueue`; `put` on a full bounded queue
  blocks forever in Python (the class never consumes items), which the
  embedding represents by returning `none`.
* The two recursive helpers `SumTree._propagate` and `SumTree._retrieve`
  are modelled with an explicit structural fuel so that they compute by
  kernel reduction; the top level entry points pass fuel that is proved
  sufficient on every input the source can reach (the fuel-0 fallback
  agrees with the terminating branch there).
* `np.random` draws are injected as explicit arguments: `get` of the
  uniform memory takes the list of chosen indices, the weighted descent
  takes a stream of tie-break choices (`false` = left child, `true` =
  right child), and the prioritized `get` takes the list of stratified
  draws, each paired with its own tie-break stream.
-/

/-- One transition record `(state, action, reward, next_state, absorbing,
last)`.  The tensor payloads are outside the core, so the state-like
fields are modelled by integers and the flags by booleans. -/
structure Record where
  state : ℤ
  action : ℤ
  reward : ℚ
  nextState : ℤ
  absorbing : Bool
  last : Bool
deriving DecidableEq

/-- A bounded `queue.Queue`: a maximum size and the items in insertion
order (`q.queue[i]` in the source is positional access into that order). -/
structure PyQueue (α : Type) where
  maxsize : ℕ
  items : List α
deriving DecidableEq

/-- Model of `queue.Queue.put`.  With a positive `maxsize` and a full queue the
Python call blocks forever waiting for a consumer that never exists in
this code base; the embedding returns `none` for that non-returning call. -/
def PyQueue.put {α : Type} (q : PyQueue α) (x : α) : Option (PyQueue α) :=
  if 0 < q.maxsize ∧ q.maxsize ≤ q.items.length then none
  else some ⟨q.maxsize, q.items ++ [x]⟩

/-- The state of `ReplayMemory`: the cursor `_idx`, the `_full` flag and
the six parallel queues created by `reset`. -/
structure ReplayMemory where
  initialSize : ℕ
  maxSize : ℕ
  idx : ℕ
  full : Bool
  states : PyQueue ℤ
  actions : PyQueue ℤ
  rewards : PyQueue ℚ
  nextStates : PyQueue ℤ
  absorbingQ : PyQueue Bool
  lastQ : PyQueue Bool
deriving DecidableEq

/-- Model of `ReplayMemory.reset`: cursor and flag cleared, six fresh bounded
queues of capacity `_max_size`. -/
def ReplayMemory.reset (m : ReplayMemory) : ReplayMemory :=
  { m with
    idx := 0
    full := false
    states := ⟨m.maxSize, []⟩
    actions := ⟨m.maxSize, []⟩
    rewards := ⟨m.maxSize, []⟩
    nextStates := ⟨m.maxSize, []⟩
    absorbingQ := ⟨m.maxSize, []⟩
    lastQ := ⟨m.maxSize, []⟩ }

/-- Model of `ReplayMemory.__init__`: stores the two sizes and calls `reset`. -/
def ReplayMemory.init (initialSize maxSize : ℕ) : ReplayMemory :=
  ReplayMemory.reset
    ⟨initialSize, maxSize, 0, false, ⟨maxSize, []⟩, ⟨maxSize, []⟩, ⟨maxSize, []⟩,
      ⟨maxSize, []⟩, ⟨maxSize, []⟩, ⟨maxSize, []⟩⟩

/-- Model of `ReplayMemory.size`: `_idx` before the first wraparound, `_max_size`
afterwards. -/
def ReplayMemory.size (m : ReplayMemory) : ℕ :=
  if m.full then m.maxSize else m.idx

/-- Model of `ReplayMemory.initialized`: `size > _initial_size` (strict). -/
def ReplayMemory.initialized (m : ReplayMemory) : Bool :=
  m.initialSize < m.size

/-- The body of the loop of `ReplayMemory.add` for one record: six `put`
calls (each can block — `none`), then the cursor step with wraparound. -/
def ReplayMemory.addOne (m : ReplayMemory) (r : Record) : Option ReplayMemory := do
  let qs ← m.states.put r.state
  let qa ← m.actions.put r.action
  let qr ← m.rewards.put r.reward
  let qn ← m.nextStates.put r.nextState
  let qb ← m.absorbingQ.put r.absorbing
  let ql ← m.lastQ.put r.last
  let m1 := { m with states := qs, actions := qa, rewards := qr,
                     nextStates := qn, absorbingQ := qb, lastQ := ql }
  if m1.idx + 1 = m1.maxSize then
    some { m1 with idx := 0, full := true }
  else
    some { m1 with idx := m1.idx + 1 }

/-- Model of `ReplayMemory.add`: the loop over the dataset. -/
def ReplayMemory.add (m : ReplayMemory) (dataset : List Record) : Option ReplayMemory :=
  dataset.foldlM ReplayMemory.addOne m

/-- The six same-length sequences returned by `ReplayMemory.get`. -/
structure UBatch where
  states : List ℤ
  actions : List ℤ
  rewards : List ℚ
  nextStates : List ℤ
  absorbing : List Bool
  last : List Bool
deriving DecidableEq

/-- Model of `ReplayMemory.get`: `np.random.choice(self.size, size=n, replace=False)`
raises `ValueError` exactly when `n > self.size` (this covers the empty
buffer with `n ≥ 1`); otherwise it yields `n` distinct indices below
`size`, injected here as `draw`, and the six fields are gathered at those
positions. -/
def ReplayMemory.get (m : ReplayMemory) (nSamples : ℕ) (draw : List ℕ) : Option UBatch :=
  if nSamples ≤ m.size then
    some ⟨draw.map (fun i => m.states.items.getD i 0),
          draw.map (fun i => m.actions.items.getD i 0),
          draw.map (fun i => m.rewards.items.getD i 0),
          draw.map (fun i => m.nextStates.items.getD i 0),
          draw.map (fun i => m.absorbingQ.items.getD i false),
          draw.map (fun i => m.lastQ.items.getD i false)⟩
  else none

/-- Model of `ReplayMemory.get` in state-passing form.  The Python method body only
reads attributes (`self._states.queue[i]`, …, `self.size`) and never
assigns any, so the translation threads the receiver through unchanged. -/
def ReplayMemory.getS (m : ReplayMemory) (nSamples : ℕ) (draw : List ℕ) :
    Option UBatch × ReplayMemory :=
  (m.get nSamples draw, m)

/-- The attribute names defined by `class ReplayMemory` in the source. -/
def replayMemoryMethods : List String :=
  ["__init__", "add", "get", "reset", "initialized", "size"]

/-- The attribute names defined by `class PrioritizedReplayMemory` in the
source. -/
def prioritizedReplayMemoryMethods : List String :=
  ["__init__", "add", "get", "update", "_get_priority", "initialized", "max_priority"]

/-- The state of `SumTree`: the flat tree array of `2 * max_size - 1`
priorities, the `max_size` data slots (initially `None`), the cursor and
the `_full` flag. -/
structure SumTree where
  maxSize : ℕ
  tree : List ℚ
  data : List (Option Record)
  idx : ℕ
  full : Bool
deriving DecidableEq

/-- Model of `SumTree.__init__`. -/
def SumTree.init (maxSize : ℕ) : SumTree :=
  ⟨maxSize, List.replicate (2 * maxSize - 1) 0, List.replicate maxSize none, 0, false⟩

/-- Model of `SumTree._propagate(delta, idx)`: add `delta` at `parent_idx =
(idx - 1) // 2` and recurse until the root.  Modelled with a structural
fuel equal to the starting index, which is enough for every call with
`idx ≥ 1` (there the parent strictly decreases to `0`); the fuel-0 case
performs the same single step as a call that stops at the root.  For
`idx = 0` — only reachable through a capacity-1 tree — the Python
recursion never terminates (`parent_idx` becomes `-1` and stays `-1`),
so no theorem below instantiates that case. -/
def propagateAux (delta : ℚ) : ℕ → ℕ → List ℚ → List ℚ
  | 0, idx, tree =>
      tree.set ((idx - 1) / 2) (tree.getD ((idx - 1) / 2) 0 + delta)
  | fuel + 1, idx, tree =>
      let p := (idx - 1) / 2
      let t := tree.set p (tree.getD p 0 + delta)
      if p = 0 then t else propagateAux delta fuel p t

/-- Model of `SumTree._propagate` at its call site (fuel `idx` suffices). -/
def SumTree.propagate (delta : ℚ) (idx : ℕ) (tree : List ℚ) : List ℚ :=
  propagateAux delta idx idx tree

/-- The body of the loop of `SumTree.update` for one `(tree_index,
priority)` pair: `delta = p - tree[i]`, `tree[i] = p`, propagate. -/
def SumTree.updateOne (st : SumTree) (i : ℕ) (p : ℚ) : SumTree :=
  let delta := p - st.tree.getD i 0
  { st with tree := SumTree.propagate delta i (st.tree.set i p) }

/-- Model of `SumTree.update(idx, priorities)`: the zipped loop. -/
def SumTree.update (st : SumTree) (idxs : List ℕ) (priorities : List ℚ) : SumTree :=
  (idxs.zip priorities).foldl (fun s pr => s.updateOne pr.1 pr.2) st

/-- The body of the loop of `SumTree.add` for one `(record, priority)`
pair: store the record at the cursor slot, set the corresponding leaf
`_idx + _max_size - 1` via `update`, advance the cursor with wraparound. -/
def SumTree.addOne (st : SumTree) (d : Record) (p : ℚ) : SumTree :=
  let leaf := st.idx + st.maxSize - 1
  let st1 := { st with data := st.data.set st.idx (some d) }
  let st2 := st1.update [leaf] [p]
  if st2.idx + 1 = st2.maxSize then { st2 with idx := 0, full := true }
  else { st2 with idx := st2.idx + 1 }

/-- Model of `SumTree.add(dataset, priority)`: the zipped loop. -/
def SumTree.add (st : SumTree) (dataset : List Record) (priority : List ℚ) : SumTree :=
  (dataset.zip priority).foldl (fun s dp => s.addOne dp.1 dp.2) st

/-- Model of `SumTree._retrieve(s, idx)`: weighted descent.  `left = 2*idx + 1`,
`right = left + 1`; a node with `left` out of range is a leaf; equal child
values descend to a uniformly random child without adjusting `s`
(injected stream `choices`, consumed at position `k`, `false` = left);
otherwise descend left when `s <= tree[left]`, else right with
`s - tree[left]`.  Structural fuel; fuel `tree.length` is sufficient from
the root, and the fuel-0 fallback returns the current index exactly as
the leaf branch would. -/
def retrieveAux (tree : List ℚ) (choices : ℕ → Bool) : ℕ → ℕ → ℚ → ℕ → ℕ
  | 0, _, _, idx => idx
  | fuel + 1, k, s, idx =>
      if tree.length ≤ 2 * idx + 1 then idx
      else if tree.getD (2 * idx + 1) 0 = tree.getD (2 * idx + 2) 0 then
        retrieveAux tree choices fuel (k + 1) s
          (if choices k then 2 * idx + 2 else 2 * idx + 1)
      else if s ≤ tree.getD (2 * idx + 1) 0 then
        retrieveAux tree choices fuel (k + 1) s (2 * idx + 1)
      else
        retrieveAux tree choices fuel (k + 1) (s - tree.getD (2 * idx + 1) 0) (2 * idx + 2)

/-- Model of `SumTree._retrieve(s, 0)` as called from `SumTree.get`. -/
def retrieve (tree : List ℚ) (choices : ℕ → Bool) (s : ℚ) : ℕ :=
  retrieveAux tree choices tree.length 0 s 0

/-- Model of `SumTree.get(s)`: the retrieved tree index, its priority, and the data
slot `idx - max_size + 1` (natural-number form `idx + 1 - max_size`; the
two agree on every retrievable index, which is at least `max_size - 1`). -/
def SumTree.get (st : SumTree) (s : ℚ) (choices : ℕ → Bool) : ℕ × ℚ × Option Record :=
  let idx := retrieve st.tree choices s
  (idx, st.tree.getD idx 0, st.data.getD (idx + 1 - st.maxSize) none)

/-- Model of `SumTree.size`. -/
def SumTree.size (st : SumTree) : ℕ :=
  if st.full then st.maxSize else st.idx

/-- Model of `SumTree.total_p`: `tree[0]`. -/
def SumTree.totalP (st : SumTree) : ℚ :=
  st.tree.getD 0 0

/-- The chain of ancestors of `idx` — `(idx-1)//2`, then its parent, and
so on up to and including the root — with the same fuel discipline as
`propagateAux`, so that `propagateAux delta fuel idx` touches exactly the
members of `parentChainAux fuel idx`. -/
def parentChainAux : ℕ → ℕ → List ℕ
  | 0, idx => [(idx - 1) / 2]
  | fuel + 1, idx =>
      let p := (idx - 1) / 2
      if p = 0 then [0] else p :: parentChainAux fuel p

/-- The ancestors of `idx` (for `idx ≥ 1`): parent, grandparent, …, root. -/
def parentChain (idx : ℕ) : List ℕ :=
  parentChainAux idx idx

/-- The sum-tree invariant: every internal node stores the sum of its two
children.  With `tree.length = 2*C - 1`, node `j` is internal exactly when
`2*j + 1 < tree.length`, i.e. `j < C - 1`. -/
def InternalSums (tree : List ℚ) : Prop :=
  ∀ j, 2 * j + 1 < tree.length →
    tree.getD j 0 = tree.getD (2 * j + 1) 0 + tree.getD (2 * j + 2) 0

/-- The leaf indices of the subtree rooted at `idx`, in descent
(in-order) order, for the implicit array tree of length `len`. -/
def leavesAux (len : ℕ) : ℕ → ℕ → List ℕ
  | 0, idx => [idx]
  | fuel + 1, idx =>
      if len ≤ 2 * idx + 1 then [idx]
      else leavesAux len fuel (2 * idx + 1) ++ leavesAux len fuel (2 * idx + 2)

/-- All leaf indices of the tree, in descent order. -/
def leavesList (tree : List ℚ) : List ℕ :=
  leavesAux tree.length tree.length 0

/-- Sum of the stored priorities at a list of tree indices. -/
def leafValsSum (tree : List ℚ) (l : List ℕ) : ℚ :=
  (l.map (fun k => tree.getD k 0)).sum

/-- Whether the descent for value `s` from `idx` never meets a node whose
two children store equal values (on such a path `_retrieve` is
deterministic: the random tie-break is never consulted). -/
def tieFreeAux (tree : List ℚ) : ℕ → ℚ → ℕ → Bool
  | 0, _, _ => true
  | fuel + 1, s, idx =>
      if tree.length ≤ 2 * idx + 1 then true
      else if tree.getD (2 * idx + 1) 0 = tree.getD (2 * idx + 2) 0 then false
      else if s ≤ tree.getD (2 * idx + 1) 0 then tieFreeAux tree fuel s (2 * idx + 1)
      else tieFreeAux tree fuel (s - tree.getD (2 * idx + 1) 0) (2 * idx + 2)

/-- Tie-freeness of the full descent for `s` from the root. -/
def tieFree (tree : List ℚ) (s : ℚ) : Bool :=
  tieFreeAux tree tree.length s 0

/-- The claim reading of a leaf's cumulative range when leaves are taken
in leaf-index order: the sum of the priorities of the leaves with smaller
index is at most `s`, and `s` is below that sum plus the leaf's own
priority. -/
def cumRangeContains (tree : List ℚ) (c : ℕ) (r : ℕ) (s : ℚ) : Prop :=
  (∑ k in Finset.range (r - (c - 1)), tree.getD (c - 1 + k) 0) ≤ s ∧
    s < (∑ k in Finset.range (r - (c - 1)), tree.getD (c - 1 + k) 0) + tree.getD r 0

/-- Model of `arr.max()` of a numpy array: the maximum of a nonempty list (numpy
raises on an empty array; the callers below guard that case). -/
def listMax : List ℝ → ℝ
  | [] => 0
  | a :: l => l.foldl max a

/-- The state of `PrioritizedReplayMemory`: the parameters and the owned
`SumTree`.  `beta` is the injected zero-argument callable. -/
structure PrioritizedReplayMemory where
  initialSize : ℕ
  maxSize : ℕ
  alpha : ℝ
  beta : Unit → ℝ
  epsilon : ℝ
  tree : SumTree

/-- Model of `PrioritizedReplayMemory.__init__`. -/
def PrioritizedReplayMemory.init (initialSize maxSize : ℕ) (alpha : ℝ)
    (beta : Unit → ℝ) (epsilon : ℝ) : PrioritizedReplayMemory :=
  ⟨initialSize, maxSize, alpha, beta, epsilon, SumTree.init maxSize⟩

/-- Model of `PrioritizedReplayMemory.add`: delegates to the tree. -/
def PrioritizedReplayMemory.add (m : PrioritizedReplayMemory)
    (dataset : List Record) (p : List ℚ) : PrioritizedReplayMemory :=
  { m with tree := m.tree.add dataset p }

/-- What `PrioritizedReplayMemory.get` returns besides the gathered
record fields: the tree indices, the drawn priorities and the normalized
importance weights.  The records are kept as the raw slots; the guard in
`get` ensures they are all `some` whenever a batch is returned. -/
structure PBatch where
  records : List (Option Record)
  idxs : List ℕ
  priorities : List ℚ
  weights : List ℝ

/-- Model of `PrioritizedReplayMemory.get(n)`.  Each of the `n` stratified uniform
draws (injected, paired with its tie-break stream) is resolved by
`SumTree.get`.  The call raises — modelled by `none` — when `n = 0`
(`is_weight.max()` on a zero-size array) or when a drawn slot holds
`None` (unpacking `data` fails); otherwise the importance weights are
`(size * p_i / total_p) ** (-beta())`, normalized by the batch maximum. -/
noncomputable def PrioritizedReplayMemory.get (m : PrioritizedReplayMemory)
    (draws : List (ℚ × (ℕ → Bool))) : Option PBatch :=
  let results := draws.map (fun d => m.tree.get d.1 d.2)
  if draws.length = 0 then none
  else if results.any (fun r => r.2.2.isNone) then none
  else
    let priorities := results.map (fun r => r.2.1)
    let total := m.tree.totalP
    let raw := priorities.map
      (fun p => Real.rpow ((m.tree.size : ℝ) * ((p / total : ℚ) : ℝ)) (-(m.beta ())))
    let wmax := listMax raw
    some ⟨results.map (fun r => r.2.2), results.map (fun r => r.1), priorities,
          raw.map (fun v => v / wmax)⟩

/-- Model of `PrioritizedReplayMemory.get` in state-passing form: the method body
reads `self._tree` (through `get`, `total_p`, `size`) and `self._beta`
but assigns no attribute, so the receiver is threaded through unchanged. -/
noncomputable def PrioritizedReplayMemory.getS (m : PrioritizedReplayMemory)
    (draws : List (ℚ × (ℕ → Bool))) : Option PBatch × PrioritizedReplayMemory :=
  (m.get draws, m)

/-- Model of `PrioritizedReplayMemory.initialized`: `tree.size > _initial_size`. -/
def PrioritizedReplayMemory.initialized (m : PrioritizedReplayMemory) : Bool :=
  m.initialSize < m.tree.size

/-- One public mutating call on a `SumTree`: an `add(dataset, priority)`
call or an `update(idx, priorities)` call. -/
inductive SOp where
  | add : List Record → List ℚ → SOp
  | update : List ℕ → List ℚ → SOp

/-- Apply one call to the tree state. -/
def applySOp (st : SumTree) : SOp → SumTree
  | SOp.add ds ps => st.add ds ps
  | SOp.update idxs ps => st.update idxs ps

/-- An `update` call is valid when every index it touches is a leaf index
of a capacity-`c` tree, i.e. lies in `[c - 1, 2*c - 1)`; `add` computes
its own leaf indices. -/
def ValidSOp (c : ℕ) : SOp → Prop
  | SOp.add _ _ => True
  | SOp.update idxs _ => ∀ i ∈ idxs, c - 1 ≤ i ∧ i < 2 * c - 1

/-- The bookkeeping invariant of a capacity-`c` tree state: recorded
capacity, array lengths, a cursor below capacity, and the sum invariant
on the tree array. -/
def GoodTree (c : ℕ) (st : SumTree) : Prop :=
  st.maxSize = c ∧ st.tree.length = 2 * c - 1 ∧ st.idx < c ∧ InternalSums st.tree

/-! Part: Basic list lemmas -/

theorem getD_set_self (l : List ℚ) (i : ℕ) (a : ℚ) (h : i < l.length) :
    (l.set i a).getD i 0 = a := by
  rw [List.getD_eq_getElem?_getD, List.getElem?_set_eq_of_lt a h]
  rfl

theorem getD_set_ne (l : List ℚ) (i j : ℕ) (a : ℚ) (h : i ≠ j) :
    (l.set i a).getD j 0 = l.getD j 0 := by
  rw [List.getD_eq_getElem?_getD, List.getD_eq_getElem?_getD, List.getElem?_set_ne h]

theorem set_getD_self (l : List ℚ) (i : ℕ) (h : i < l.length) :
    l.set i (l.getD i 0) = l := by
  apply List.ext_getElem?
  intro n
  by_cases hn : i = n
  · subst hn
    rw [List.getElem?_set_eq_of_lt _ h, List.getD_eq_getElem _ _ h,
      List.getElem?_eq_getElem h]
  · rw [List.getElem?_set_ne hn]

theorem getD_replicate_none (n j : ℕ) :
    (List.replicate n (none : Option Record)).getD j none = none := by
  rcases lt_or_le j n with h | h
  · rw [List.getD_eq_getElem _ _ (by simpa using h)]
    simp
  · rw [List.getD_eq_default]
    simpa using h

theorem propagateAux_length (delta : ℚ) :
    ∀ fuel idx (tree : List ℚ), (propagateAux delta fuel idx tree).length = tree.length := by
  intro fuel
  induction fuel with
  | zero => intro idx tree; simp [propagateAux]
  | succ n ih =>
      intro idx tree
      simp only [propagateAux]
      by_cases h : (idx - 1) / 2 = 0
      · simp [h]
      · simp [h, ih]

/-! Part: The uniform memory: blocking `add`, empty-buffer `get`, `reset`, and
the read-only `get` -/

/-- Claim C3: the claimed silent ring-buffer overwrite does not happen for
`ReplayMemory`.  Its storage is six `queue.Queue(max_size)` objects and
`add` uses blocking `put` calls, so once `max_size` records are stored the
next `put` waits forever for a consumer that does not exist: here, adding
3 records to a fresh buffer of capacity 2 never returns (the third record
blocks), instead of overwriting the oldest record. -/
theorem replayMemory_add_blocks_when_full :
    ReplayMemory.add (ReplayMemory.init 0 2)
      [⟨0, 0, 0, 0, false, false⟩, ⟨0, 0, 0, 0, false, false⟩,
        ⟨0, 0, 0, 0, false, false⟩] = none := by
  rfl

/-- Claim C7, counterexample: `get(0)` on an empty uniform buffer does not
fail — `np.random.choice(0, size=0, replace=False)` succeeds — and a
silent empty batch is returned. -/
theorem uniform_get_empty_returns_empty_batch :
    ReplayMemory.get (ReplayMemory.init 0 2) 0 [] = some ⟨[], [], [], [], [], []⟩ := by
  rfl

/-- Claim C7 (amended): for `n ≥ 1`, `get(n)` on an empty buffer of either
variant fails with an exception rather than returning a batch: the uniform
variant because `np.random.choice` rejects sampling `n > 0` items from an
empty population without replacement, the prioritized variant because every
data slot of a fresh tree holds `None` and unpacking it raises. -/
theorem get_on_empty_buffer_fails (isz c n : ℕ) (draw : List ℕ)
    (alpha : ℝ) (beta : Unit → ℝ) (eps : ℝ) (draws : List (ℚ × (ℕ → Bool)))
    (hn : 1 ≤ n) (hd : draws ≠ []) :
    ReplayMemory.get (ReplayMemory.init isz c) n draw = none ∧
      PrioritizedReplayMemory.get (PrioritizedReplayMemory.init isz c alpha beta eps)
        draws = none := by
  constructor
  · have hsz : (ReplayMemory.init isz c).size = 0 := rfl
    simp only [ReplayMemory.get, hsz]
    rw [if_neg (by omega)]
  · rcases draws with _ | ⟨d, rest⟩
    · exact absurd rfl hd
    · simp [PrioritizedReplayMemory.get, PrioritizedReplayMemory.init, SumTree.get,
        SumTree.init, getD_replicate_none]

/-- Witness for the amended claim C7 at concrete inputs. -/
theorem get_on_empty_buffer_fails_witness :
    ReplayMemory.get (ReplayMemory.init 0 2) 1 [] = none ∧
      PrioritizedReplayMemory.get (PrioritizedReplayMemory.init 0 2 1 (fun _ => 1) 1)
        [((0 : ℚ), fun _ => false)] = none :=
  get_on_empty_buffer_fails 0 2 1 [] 1 (fun _ => 1) 1 [((0 : ℚ), fun _ => false)]
    (by omega) (List.cons_ne_nil _ _)

/-- Claim C8 (amended): the uniform `ReplayMemory` does provide `reset`,
and after it `size = 0`, `initialized` is false, and the state is exactly
that of a freshly constructed buffer with the same parameters — so any
subsequent `add`/`get` sequence behaves identically.  (The prioritized
variant has no `reset`; see the counterexample.) -/
theorem replayMemory_reset_is_fresh (m : ReplayMemory) :
    (m.reset).size = 0 ∧ (m.reset).initialized = false ∧
      m.reset = ReplayMemory.init m.initialSize m.maxSize := by
  refine ⟨rfl, ?_, rfl⟩
  simp [ReplayMemory.initialized, ReplayMemory.reset, ReplayMemory.size]

/-- Claim C8, counterexample: `reset` is among the attributes of
`ReplayMemory` but not among those of `PrioritizedReplayMemory` — the
prioritized variant provides no `reset()` operation at all. -/
theorem prioritizedReplayMemory_lacks_reset :
    "reset" ∈ replayMemoryMethods ∧ "reset" ∉ prioritizedReplayMemoryMethods := by
  decide

/-- Claim C9: neither `get` mutates its buffer: both method bodies only
read attributes, so the post-state equals the pre-state in every field —
stored records, tree priorities, write cursor and full flag included. -/
theorem get_does_not_mutate (m : ReplayMemory) (n : ℕ) (draw : List ℕ)
    (pm : PrioritizedReplayMemory) (draws : List (ℚ × (ℕ → Bool))) :
    (m.getS n draw).2 = m ∧ (pm.getS draws).2 = pm ∧
      (pm.getS draws).2.tree.tree = pm.tree.tree ∧
      (pm.getS draws).2.tree.data = pm.tree.data ∧
      (pm.getS draws).2.tree.idx = pm.tree.idx ∧
      (pm.getS draws).2.tree.full = pm.tree.full ∧
      (m.getS n draw).2.idx = m.idx ∧ (m.getS n draw).2.full = m.full :=
  ⟨rfl, rfl, rfl, rfl, rfl, rfl, rfl, rfl⟩

/-! Part: Step equations for the fuelled recursions (used to evaluate
concrete descents and propagations without unfolding blow-up) -/

theorem propagateAux_root (delta : ℚ) (fuel idx : ℕ) (tree : List ℚ)
    (h : (idx - 1) / 2 = 0) :
    propagateAux delta fuel idx tree = tree.set 0 (tree.getD 0 0 + delta) := by
  cases fuel with
  | zero => simp only [propagateAux, h]
  | succ n =>
      simp only [propagateAux, h]
      simp

theorem propagateAux_step (delta : ℚ) (fuel idx : ℕ) (tree : List ℚ)
    (hf : fuel ≠ 0) (h : (idx - 1) / 2 ≠ 0) :
    propagateAux delta fuel idx tree =
      propagateAux delta (fuel - 1) ((idx - 1) / 2)
        (tree.set ((idx - 1) / 2) (tree.getD ((idx - 1) / 2) 0 + delta)) := by
  cases fuel with
  | zero => exact absurd rfl hf
  | succ n =>
      simp only [propagateAux, Nat.succ_sub_one]
      rw [if_neg h]

theorem retrieveAux_leaf (tree : List ℚ) (choices : ℕ → Bool) (fuel k : ℕ) (s : ℚ)
    (idx : ℕ) (h : tree.length ≤ 2 * idx + 1) :
    retrieveAux tree choices fuel k s idx = idx := by
  cases fuel with
  | zero => rfl
  | succ n => simp [retrieveAux, h]

theorem retrieveAux_tie (tree : List ℚ) (choices : ℕ → Bool) (fuel k : ℕ) (s : ℚ)
    (idx : ℕ) (hf : fuel ≠ 0) (h1 : ¬ tree.length ≤ 2 * idx + 1)
    (h2 : tree.getD (2 * idx + 1) 0 = tree.getD (2 * idx + 2) 0) :
    retrieveAux tree choices fuel k s idx =
      retrieveAux tree choices (fuel - 1) (k + 1) s
        (if choices k then 2 * idx + 2 else 2 * idx + 1) := by
  cases fuel with
  | zero => exact absurd rfl hf
  | succ n => simp only [retrieveAux, if_neg h1, if_pos h2, Nat.succ_sub_one]

theorem retrieveAux_goLeft (tree : List ℚ) (choices : ℕ → Bool) (fuel k : ℕ) (s : ℚ)
    (idx : ℕ) (hf : fuel ≠ 0) (h1 : ¬ tree.length ≤ 2 * idx + 1)
    (h2 : ¬ tree.getD (2 * idx + 1) 0 = tree.getD (2 * idx + 2) 0)
    (h3 : s ≤ tree.getD (2 * idx + 1) 0) :
    retrieveAux tree choices fuel k s idx =
      retrieveAux tree choices (fuel - 1) (k + 1) s (2 * idx + 1) := by
  cases fuel with
  | zero => exact absurd rfl hf
  | succ n => simp only [retrieveAux, if_neg h1, if_neg h2, if_pos h3, Nat.succ_sub_one]

theorem retrieveAux_goRight (tree : List ℚ) (choices : ℕ → Bool) (fuel k : ℕ) (s : ℚ)
    (idx : ℕ) (hf : fuel ≠ 0) (h1 : ¬ tree.length ≤ 2 * idx + 1)
    (h2 : ¬ tree.getD (2 * idx + 1) 0 = tree.getD (2 * idx + 2) 0)
    (h3 : ¬ s ≤ tree.getD (2 * idx + 1) 0) :
    retrieveAux tree choices fuel k s idx =
      retrieveAux tree choices (fuel - 1) (k + 1) (s - tree.getD (2 * idx + 1) 0)
        (2 * idx + 2) := by
  cases fuel with
  | zero => exact absurd rfl hf
  | succ n => simp only [retrieveAux, if_neg h1, if_neg h2, if_neg h3, Nat.succ_sub_one]

theorem tieFreeAux_leaf (tree : List ℚ) (fuel : ℕ) (s : ℚ) (idx : ℕ)
    (h : tree.length ≤ 2 * idx + 1) :
    tieFreeAux tree fuel s idx = true := by
  cases fuel with
  | zero => rfl
  | succ n => simp [tieFreeAux, h]

theorem tieFreeAux_goLeft (tree : List ℚ) (fuel : ℕ) (s : ℚ) (idx : ℕ)
    (hf : fuel ≠ 0) (h1 : ¬ tree.length ≤ 2 * idx + 1)
    (h2 : ¬ tree.getD (2 * idx + 1) 0 = tree.getD (2 * idx + 2) 0)
    (h3 : s ≤ tree.getD (2 * idx + 1) 0) :
    tieFreeAux tree fuel s idx = tieFreeAux tree (fuel - 1) s (2 * idx + 1) := by
  cases fuel with
  | zero => exact absurd rfl hf
  | succ n => simp only [tieFreeAux, if_neg h1, if_neg h2, if_pos h3, Nat.succ_sub_one]

theorem tieFreeAux_goRight (tree : List ℚ) (fuel : ℕ) (s : ℚ) (idx : ℕ)
    (hf : fuel ≠ 0) (h1 : ¬ tree.length ≤ 2 * idx + 1)
    (h2 : ¬ tree.getD (2 * idx + 1) 0 = tree.getD (2 * idx + 2) 0)
    (h3 : ¬ s ≤ tree.getD (2 * idx + 1) 0) :
    tieFreeAux tree fuel s idx =
      tieFreeAux tree (fuel - 1) (s - tree.getD (2 * idx + 1) 0) (2 * idx + 2) := by
  cases fuel with
  | zero => exact absurd rfl hf
  | succ n => simp only [tieFreeAux, if_neg h1, if_neg h2, if_neg h3, Nat.succ_sub_one]

/-! Part: Weighted descent: the returned index is always a leaf index -/

theorem retrieveAux_mem_leaf_range (tree : List ℚ) (choices : ℕ → Bool) (c : ℕ)
    (hc : 1 ≤ c) (hlen : tree.length = 2 * c - 1) :
    ∀ fuel k idx (s : ℚ), tree.length ≤ fuel + idx + 1 → idx < tree.length →
      c - 1 ≤ retrieveAux tree choices fuel k s idx ∧
        retrieveAux tree choices fuel k s idx < 2 * c - 1 := by
  intro fuel
  induction fuel with
  | zero =>
      intro k idx s hfuel hidx
      simp only [retrieveAux]
      omega
  | succ n ih =>
      intro k idx s hfuel hidx
      simp only [retrieveAux]
      by_cases hleaf : tree.length ≤ 2 * idx + 1
      · simp only [if_pos hleaf]
        omega
      · simp only [if_neg hleaf]
        by_cases htie : tree.getD (2 * idx + 1) 0 = tree.getD (2 * idx + 2) 0
        · simp only [if_pos htie]
          by_cases hch : choices k
          · simp only [hch, if_true]
            exact ih (k + 1) (2 * idx + 2) s (by omega) (by omega)
          · simp only [hch, if_false]
            exact ih (k + 1) (2 * idx + 1) s (by omega) (by omega)
        · simp only [if_neg htie]
          by_cases hs : s ≤ tree.getD (2 * idx + 1) 0
          · simp only [if_pos hs]
            exact ih (k + 1) (2 * idx + 1) s (by omega) (by omega)
          · simp only [if_neg hs]
            exact ih (k + 1) (2 * idx + 2) (s - tree.getD (2 * idx + 1) 0)
              (by omega) (by omega)

/-- Claim C5 (amended): for any query `s` in `[0, total_p)` the weighted
descent always returns a tree index in the leaf range
`[leaf_base, leaf_base + capacity) = [C-1, 2C-1)`.  The second half of the
original claim — that the slot always holds a written record — is false;
see the counterexample. -/
theorem retrieve_index_in_leaf_range (st : SumTree) (choices : ℕ → Bool) (s : ℚ)
    (hc : 1 ≤ st.maxSize) (hlen : st.tree.length = 2 * st.maxSize - 1)
    (hs0 : 0 ≤ s) (hs1 : s < st.totalP) :
    st.maxSize - 1 ≤ (st.get s choices).1 ∧
      (st.get s choices).1 < 2 * st.maxSize - 1 := by
  have h := retrieveAux_mem_leaf_range st.tree choices st.maxSize hc hlen
    st.tree.length 0 0 s (by omega) (by omega)
  simpa [SumTree.get, retrieve] using h

/-- Witness for the amended claim C5 at concrete inputs. -/
theorem retrieve_index_in_leaf_range_witness :
    2 - 1 ≤ (SumTree.get ⟨2, [4, 1, 3], [some ⟨0, 0, 0, 0, false, false⟩,
        some ⟨1, 0, 0, 0, false, false⟩], 0, true⟩ 2 (fun _ => false)).1 ∧
      (SumTree.get ⟨2, [4, 1, 3], [some ⟨0, 0, 0, 0, false, false⟩,
        some ⟨1, 0, 0, 0, false, false⟩], 0, true⟩ 2 (fun _ => false)).1 < 2 * 2 - 1 :=
  retrieve_index_in_leaf_range
    ⟨2, [4, 1, 3], [some ⟨0, 0, 0, 0, false, false⟩, some ⟨1, 0, 0, 0, false, false⟩],
      0, true⟩ (fun _ => false) 2 (by norm_num) (by norm_num)
    (by norm_num) (by norm_num [SumTree.totalP])

/-- Claim C5, counterexample: capacity 4, three records added with
priorities `[1, 1, 2]`, query `s = 3 ∈ [0, total_p) = [0, 4)`.  The two
root children both store `2`, so the tie-break applies; resolving it to
the right descends with `s` unchanged and ends at leaf 6, whose data slot
(index 3) was never written: the returned slot holds `None`, not a real
record. -/
theorem retrieve_can_return_unwritten_slot :
    (0 : ℚ) ≤ 3 ∧
      (3 : ℚ) < (SumTree.add (SumTree.init 4)
        [⟨0, 0, 0, 0, false, false⟩, ⟨1, 0, 0, 0, false, false⟩,
          ⟨2, 0, 0, 0, false, false⟩] [1, 1, 2]).totalP ∧
      (SumTree.get (SumTree.add (SumTree.init 4)
        [⟨0, 0, 0, 0, false, false⟩, ⟨1, 0, 0, 0, false, false⟩,
          ⟨2, 0, 0, 0, false, false⟩] [1, 1, 2]) 3 (fun _ => true)).1 = 6 ∧
      (SumTree.get (SumTree.add (SumTree.init 4)
        [⟨0, 0, 0, 0, false, false⟩, ⟨1, 0, 0, 0, false, false⟩,
          ⟨2, 0, 0, 0, false, false⟩] [1, 1, 2]) 3 (fun _ => true)).2.2 = none := by
  have hstate : SumTree.add (SumTree.init 4)
      [⟨0, 0, 0, 0, false, false⟩, ⟨1, 0, 0, 0, false, false⟩,
        ⟨2, 0, 0, 0, false, false⟩] [1, 1, 2]
      = ⟨4, [4, 2, 2, 1, 1, 2, 0],
          [some ⟨0, 0, 0, 0, false, false⟩, some ⟨1, 0, 0, 0, false, false⟩,
            some ⟨2, 0, 0, 0, false, false⟩, none], 3, false⟩ := by
    norm_num [SumTree.add, SumTree.addOne, SumTree.update, SumTree.updateOne,
      SumTree.propagate, SumTree.init, propagateAux_root, propagateAux_step,
      List.set_cons_zero, List.set_cons_succ, List.replicate_succ,
      List.getD_cons_zero, List.getD_cons_succ]
  rw [hstate]
  norm_num [SumTree.get, SumTree.totalP, retrieve, retrieveAux_leaf, retrieveAux_tie,
    retrieveAux_goLeft, retrieveAux_goRight, List.getD_cons_zero, List.getD_cons_succ]

/-! Part: `update`: the no-op case and the exact frame of a single update -/

theorem propagateAux_zero_delta :
    ∀ fuel idx (tree : List ℚ), 1 ≤ idx → idx < tree.length →
      propagateAux 0 fuel idx tree = tree := by
  intro fuel
  induction fuel with
  | zero =>
      intro idx tree h1 h2
      simp only [propagateAux, add_zero]
      exact set_getD_self tree _ (by omega)
  | succ n ih =>
      intro idx tree h1 h2
      simp only [propagateAux, add_zero]
      by_cases hp : (idx - 1) / 2 = 0
      · rw [if_pos hp, hp]
        exact set_getD_self tree 0 (by omega)
      · rw [if_neg hp, set_getD_self tree _ (by omega : (idx - 1) / 2 < tree.length)]
        exact ih _ tree (by omega) (by omega)

/-- Claim C10: `update([i], [p])` with `p` equal to the current stored
priority `tree[i]` of a valid leaf leaves the whole structure unchanged:
`delta` is `0`, the leaf is re-assigned its own value, and every ancestor
has `0` added to it. -/
theorem update_same_priority_noop (st : SumTree) (i : ℕ)
    (hc : 2 ≤ st.maxSize) (hlen : st.tree.length = 2 * st.maxSize - 1)
    (hi1 : st.maxSize - 1 ≤ i) (hi2 : i < 2 * st.maxSize - 1) :
    st.update [i] [st.tree.getD i 0] = st := by
  have hi : i < st.tree.length := by omega
  have h1 : (1 : ℕ) ≤ i := by omega
  show st.updateOne i (st.tree.getD i 0) = st
  simp only [SumTree.updateOne, SumTree.propagate, sub_self]
  rw [set_getD_self st.tree i hi, propagateAux_zero_delta i i st.tree h1 hi]

/-- Witness for claim C10 at a concrete tree. -/
theorem update_same_priority_noop_witness :
    SumTree.update ⟨2, [4, 1, 3], [some ⟨0, 0, 0, 0, false, false⟩,
        some ⟨1, 0, 0, 0, false, false⟩], 0, true⟩ [2]
      [(⟨2, [4, 1, 3], [some ⟨0, 0, 0, 0, false, false⟩,
        some ⟨1, 0, 0, 0, false, false⟩], 0, true⟩ : SumTree).tree.getD 2 0]
      = ⟨2, [4, 1, 3], [some ⟨0, 0, 0, 0, false, false⟩,
        some ⟨1, 0, 0, 0, false, false⟩], 0, true⟩ :=
  update_same_priority_noop
    ⟨2, [4, 1, 3], [some ⟨0, 0, 0, 0, false, false⟩,
      some ⟨1, 0, 0, 0, false, false⟩], 0, true⟩ 2
    (by norm_num) (by norm_num) (by norm_num) (by norm_num)

theorem parentChainAux_lt :
    ∀ fuel idx, 1 ≤ idx → ∀ j ∈ parentChainAux fuel idx, j < idx := by
  intro fuel
  induction fuel with
  | zero =>
      intro idx h1 j hj
      simp only [parentChainAux, List.mem_singleton] at hj
      omega
  | succ n ih =>
      intro idx h1 j hj
      simp only [parentChainAux] at hj
      by_cases hp : (idx - 1) / 2 = 0
      · rw [if_pos hp] at hj
        simp only [List.mem_singleton] at hj
        omega
      · rw [if_neg hp] at hj
        rcases List.mem_cons.mp hj with h | h
        · omega
        · have := ih _ (by omega) j h
          omega

theorem zero_mem_parentChainAux :
    ∀ fuel idx, 1 ≤ idx → idx ≤ fuel + 1 → (0 : ℕ) ∈ parentChainAux fuel idx := by
  intro fuel
  induction fuel with
  | zero =>
      intro idx h1 h2
      simp only [parentChainAux, List.mem_singleton]
      omega
  | succ n ih =>
      intro idx h1 h2
      simp only [parentChainAux]
      by_cases hp : (idx - 1) / 2 = 0
      · rw [if_pos hp]
        exact List.mem_singleton.mpr rfl
      · rw [if_neg hp]
        exact List.mem_cons_of_mem _ (ih _ (by omega) (by omega))

theorem propagateAux_getD (delta : ℚ) :
    ∀ fuel idx (tree : List ℚ), 1 ≤ idx → idx ≤ fuel + 1 → idx < tree.length →
      ∀ j, (propagateAux delta fuel idx tree).getD j 0
        = tree.getD j 0 + (if j ∈ parentChainAux fuel idx then delta else 0) := by
  intro fuel
  induction fuel with
  | zero =>
      intro idx tree h1 h2 h3 j
      simp only [propagateAux, parentChainAux]
      by_cases hj : j = (idx - 1) / 2
      · subst hj
        rw [getD_set_self _ _ _ (by omega), if_pos (List.mem_singleton.mpr rfl)]
      · rw [getD_set_ne _ _ _ _ (fun h => hj h.symm),
          if_neg (fun h => hj (List.mem_singleton.mp h)), add_zero]
  | succ n ih =>
      intro idx tree h1 h2 h3 j
      by_cases hp : (idx - 1) / 2 = 0
      · have hdef : propagateAux delta (n + 1) idx tree
            = tree.set ((idx - 1) / 2) (tree.getD ((idx - 1) / 2) 0 + delta) := by
          simp only [propagateAux, if_pos hp]
        have hchain : parentChainAux (n + 1) idx = [0] := by
          simp only [parentChainAux, if_pos hp]
        rw [hdef, hchain, hp]
        by_cases hj : j = 0
        · subst hj
          rw [getD_set_self _ _ _ (by omega), if_pos (List.mem_singleton.mpr rfl)]
        · rw [getD_set_ne _ _ _ _ (fun h => hj h.symm),
            if_neg (fun h => hj (List.mem_singleton.mp h)), add_zero]
      · have hdef : propagateAux delta (n + 1) idx tree
            = propagateAux delta n ((idx - 1) / 2)
                (tree.set ((idx - 1) / 2) (tree.getD ((idx - 1) / 2) 0 + delta)) := by
          simp only [propagateAux, if_neg hp]
        have hchain : parentChainAux (n + 1) idx
            = (idx - 1) / 2 :: parentChainAux n ((idx - 1) / 2) := by
          simp only [parentChainAux, if_neg hp]
        rw [hdef, hchain]
        rw [ih ((idx - 1) / 2) _ (by omega) (by omega)
          (by simp only [List.length_set]; omega) j]
        have hnotmem : ((idx - 1) / 2) ∉ parentChainAux n ((idx - 1) / 2) :=
          fun h => absurd (parentChainAux_lt n _ (by omega) _ h) (lt_irrefl _)
        by_cases hj : j = (idx - 1) / 2
        · subst hj
          rw [getD_set_self _ _ _ (by omega), if_neg hnotmem,
            if_pos (List.mem_cons_self _ _), add_zero]
        · rw [getD_set_ne _ _ _ _ (fun h => hj h.symm)]
          by_cases hmem : j ∈ parentChainAux n ((idx - 1) / 2)
          · rw [if_pos hmem, if_pos (List.mem_cons_of_mem _ hmem)]
          · rw [if_neg hmem, if_neg (by
              intro h
              rcases List.mem_cons.mp h with h | h
              · exact hj h
              · exact hmem h), add_zero]

theorem updateOne_tree_getD (st : SumTree) (i : ℕ) (p : ℚ)
    (h1 : 1 ≤ i) (h2 : i < st.tree.length) (j : ℕ) :
    (st.updateOne i p).tree.getD j 0 =
      if j = i then p
      else st.tree.getD j 0 + (if j ∈ parentChain i then p - st.tree.getD i 0 else 0) := by
  simp only [SumTree.updateOne, SumTree.propagate, parentChain]
  rw [propagateAux_getD (p - st.tree.getD i 0) i i (st.tree.set i p) h1 (by omega)
    (by simpa using h2) j]
  by_cases hj : j = i
  · rw [if_pos hj, hj, getD_set_self _ _ _ h2,
      if_neg (fun h => absurd (parentChainAux_lt i i h1 _ h) (lt_irrefl _)), add_zero]
  · rw [if_neg hj, getD_set_ne _ _ _ _ (fun h => hj h.symm)]

/-- Claim C4: a single `update([i], [p])` at a valid leaf index sets
`tree[i] = p`, adds `delta = p - old tree[i]` to exactly the ancestors of
`i` up to and including the root (`parentChain i`, whose members are all
strictly above the leaf and include `0`), and changes nothing else: all
other tree entries, the data array and the array length are untouched. -/
theorem update_single_leaf_frame (st : SumTree) (i : ℕ) (p : ℚ)
    (hc : 2 ≤ st.maxSize) (hlen : st.tree.length = 2 * st.maxSize - 1)
    (hi1 : st.maxSize - 1 ≤ i) (hi2 : i < 2 * st.maxSize - 1) :
    (st.update [i] [p]).tree.getD i 0 = p ∧
      (∀ j ∈ parentChain i,
        (st.update [i] [p]).tree.getD j 0 = st.tree.getD j 0 + (p - st.tree.getD i 0)) ∧
      (∀ j, j ≠ i → j ∉ parentChain i →
        (st.update [i] [p]).tree.getD j 0 = st.tree.getD j 0) ∧
      0 ∈ parentChain i ∧ (∀ j ∈ parentChain i, j < i) ∧
      (st.update [i] [p]).data = st.data ∧
      (st.update [i] [p]).tree.length = st.tree.length := by
  have h1 : (1 : ℕ) ≤ i := by omega
  have h2 : i < st.tree.length := by omega
  have hshow : st.update [i] [p] = st.updateOne i p := rfl
  rw [hshow]
  refine ⟨?_, ?_, ?_, ?_, ?_, rfl, ?_⟩
  · rw [updateOne_tree_getD st i p h1 h2 i, if_pos rfl]
  · intro j hj
    have hlt := parentChainAux_lt i i h1 j hj
    rw [updateOne_tree_getD st i p h1 h2 j, if_neg (by omega), if_pos hj]
  · intro j hji hjc
    rw [updateOne_tree_getD st i p h1 h2 j, if_neg hji, if_neg hjc, add_zero]
  · exact zero_mem_parentChainAux i i h1 (by omega)
  · exact parentChainAux_lt i i h1
  · simp only [SumTree.updateOne, SumTree.propagate]
    rw [propagateAux_length]
    simp

/-- Witness for claim C4 at a concrete tree: capacity 2, tree
`[4, 1, 3]`, update leaf 2 to priority 5. -/
theorem update_single_leaf_frame_witness :
    ((SumTree.update ⟨2, [4, 1, 3], [none, none], 0, true⟩ [2] [5]).tree.getD 2 0 = 5 ∧
      (∀ j ∈ parentChain 2,
        (SumTree.update ⟨2, [4, 1, 3], [none, none], 0, true⟩ [2] [5]).tree.getD j 0 =
          (⟨2, [4, 1, 3], [none, none], 0, true⟩ : SumTree).tree.getD j 0 +
            (5 - (⟨2, [4, 1, 3], [none, none], 0, true⟩ : SumTree).tree.getD 2 0)) ∧
      (∀ j, j ≠ 2 → j ∉ parentChain 2 →
        (SumTree.update ⟨2, [4, 1, 3], [none, none], 0, true⟩ [2] [5]).tree.getD j 0 =
          (⟨2, [4, 1, 3], [none, none], 0, true⟩ : SumTree).tree.getD j 0) ∧
      0 ∈ parentChain 2 ∧ (∀ j ∈ parentChain 2, j < 2) ∧
      (SumTree.update ⟨2, [4, 1, 3], [none, none], 0, true⟩ [2] [5]).data =
        (⟨2, [4, 1, 3], [none, none], 0, true⟩ : SumTree).data ∧
      (SumTree.update ⟨2, [4, 1, 3], [none, none], 0, true⟩ [2] [5]).tree.length =
        (⟨2, [4, 1, 3], [none, none], 0, true⟩ : SumTree).tree.length) :=
  update_single_leaf_frame ⟨2, [4, 1, 3], [none, none], 0, true⟩ 2 5
    (by norm_num) (by norm_num) (by norm_num) (by norm_num)

/-! Part: The sum invariant (claim C1) -/

theorem getD_replicate_zero (n j : ℕ) : (List.replicate n (0 : ℚ)).getD j 0 = 0 := by
  rcases lt_or_le j n with h | h
  · rw [List.getD_eq_getElem _ _ (by simpa using h)]
    simp
  · rw [List.getD_eq_default]
    simpa using h

theorem propagateAux_internalSums (delta : ℚ) :
    ∀ fuel idx (tree : List ℚ), 1 ≤ idx → idx ≤ fuel + 1 → idx < tree.length →
      (∀ j, 2 * j + 1 < tree.length → j ≠ (idx - 1) / 2 →
        tree.getD j 0 = tree.getD (2 * j + 1) 0 + tree.getD (2 * j + 2) 0) →
      (tree.getD ((idx - 1) / 2) 0 + delta
        = tree.getD (2 * ((idx - 1) / 2) + 1) 0 + tree.getD (2 * ((idx - 1) / 2) + 2) 0) →
      InternalSums (propagateAux delta fuel idx tree) := by
  intro fuel
  induction fuel with
  | zero =>
      intro idx tree h1 h2 h3 hbal hdef
      have hp : (idx - 1) / 2 = 0 := by omega
      rw [show propagateAux delta 0 idx tree
          = tree.set ((idx - 1) / 2) (tree.getD ((idx - 1) / 2) 0 + delta) from rfl, hp]
      rw [hp] at hdef
      intro j hj
      rw [List.length_set] at hj
      by_cases hj0 : j = 0
      · subst hj0
        rw [getD_set_self _ _ _ (by omega), getD_set_ne _ _ _ _ (by omega),
          getD_set_ne _ _ _ _ (by omega)]
        exact hdef
      · rw [getD_set_ne _ _ _ _ (by omega), getD_set_ne _ _ _ _ (by omega),
          getD_set_ne _ _ _ _ (by omega)]
        exact hbal j hj (by omega)
  | succ n ih =>
      intro idx tree h1 h2 h3 hbal hdef
      by_cases hp : (idx - 1) / 2 = 0
      · have hdefeq : propagateAux delta (n + 1) idx tree
            = tree.set ((idx - 1) / 2) (tree.getD ((idx - 1) / 2) 0 + delta) := by
          simp only [propagateAux, if_pos hp]
        rw [hdefeq, hp]
        rw [hp] at hdef
        intro j hj
        rw [List.length_set] at hj
        by_cases hj0 : j = 0
        · subst hj0
          rw [getD_set_self _ _ _ (by omega), getD_set_ne _ _ _ _ (by omega),
            getD_set_ne _ _ _ _ (by omega)]
          exact hdef
        · rw [getD_set_ne _ _ _ _ (by omega), getD_set_ne _ _ _ _ (by omega),
            getD_set_ne _ _ _ _ (by omega)]
          exact hbal j hj (by omega)
      · have hdefeq : propagateAux delta (n + 1) idx tree
            = propagateAux delta n ((idx - 1) / 2)
                (tree.set ((idx - 1) / 2) (tree.getD ((idx - 1) / 2) 0 + delta)) := by
          simp only [propagateAux, if_neg hp]
        rw [hdefeq]
        apply ih ((idx - 1) / 2) _ (by omega) (by omega)
          (by simp only [List.length_set]; omega)
        · intro j hj hjne
          rw [List.length_set] at hj
          by_cases hjp : j = (idx - 1) / 2
          · subst hjp
            rw [getD_set_self _ _ _ (by omega), getD_set_ne _ _ _ _ (by omega),
              getD_set_ne _ _ _ _ (by omega)]
            exact hdef
          · rw [getD_set_ne _ _ _ _ (fun h => hjp h.symm),
              getD_set_ne _ _ _ _ (by omega), getD_set_ne _ _ _ _ (by omega)]
            exact hbal j hj hjp
        · rcases (by omega : (idx - 1) / 2 = 2 * (((idx - 1) / 2 - 1) / 2) + 1 ∨
              (idx - 1) / 2 = 2 * (((idx - 1) / 2 - 1) / 2) + 2) with hcase | hcase
          · rw [getD_set_ne _ _ _ _ (by omega)]
            conv_lhs => rw [hbal (((idx - 1) / 2 - 1) / 2) (by omega) (by omega)]
            rw [← hcase, getD_set_self _ _ _ (by omega),
              getD_set_ne _ _ _ _ (by omega)]
            ring
          · rw [getD_set_ne _ _ _ _ (by omega)]
            conv_lhs => rw [hbal (((idx - 1) / 2 - 1) / 2) (by omega) (by omega)]
            rw [← hcase, getD_set_self _ _ _ (by omega),
              getD_set_ne _ _ _ _ (by omega)]
            ring

theorem updateOne_internalSums (st : SumTree) (i : ℕ) (p : ℚ) (c : ℕ)
    (hc : 2 ≤ c) (hlen : st.tree.length = 2 * c - 1)
    (hi1 : c - 1 ≤ i) (hi2 : i < 2 * c - 1) (hinv : InternalSums st.tree) :
    InternalSums (st.updateOne i p).tree := by
  simp only [SumTree.updateOne, SumTree.propagate]
  apply propagateAux_internalSums (p - st.tree.getD i 0) i i (st.tree.set i p)
    (by omega) (by omega) (by simp only [List.length_set]; omega)
  · intro j hj hjne
    rw [List.length_set] at hj
    rw [getD_set_ne _ _ _ _ (by omega), getD_set_ne _ _ _ _ (by omega),
      getD_set_ne _ _ _ _ (by omega)]
    exact hinv j (by omega)
  · rcases (by omega : i = 2 * ((i - 1) / 2) + 1 ∨ i = 2 * ((i - 1) / 2) + 2)
      with hcase | hcase
    · rw [getD_set_ne _ _ _ _ (by omega)]
      conv_lhs => rw [hinv ((i - 1) / 2) (by omega)]
      rw [← hcase, getD_set_self _ _ _ (by omega), getD_set_ne _ _ _ _ (by omega)]
      ring
    · rw [getD_set_ne _ _ _ _ (by omega)]
      conv_lhs => rw [hinv ((i - 1) / 2) (by omega)]
      rw [← hcase, getD_set_self _ _ _ (by omega), getD_set_ne _ _ _ _ (by omega)]
      ring

theorem updateOne_goodTree (c : ℕ) (st : SumTree) (hc : 2 ≤ c) (hg : GoodTree c st)
    (i : ℕ) (p : ℚ) (hi1 : c - 1 ≤ i) (hi2 : i < 2 * c - 1) :
    GoodTree c (st.updateOne i p) := by
  obtain ⟨hmax, hlen, hidx, hinv⟩ := hg
  refine ⟨hmax, ?_, hidx, updateOne_internalSums st i p c hc hlen hi1 hi2 hinv⟩
  show (SumTree.propagate _ i (st.tree.set i p)).length = 2 * c - 1
  rw [SumTree.propagate, propagateAux_length]
  simp only [List.length_set]
  exact hlen

theorem update_goodTree (c : ℕ) (st : SumTree) (hc : 2 ≤ c) (hg : GoodTree c st)
    (idxs : List ℕ) (ps : List ℚ)
    (hvalid : ∀ i ∈ idxs, c - 1 ≤ i ∧ i < 2 * c - 1) :
    GoodTree c (st.update idxs ps) := by
  simp only [SumTree.update]
  have key : ∀ l : List (ℕ × ℚ), (∀ pr ∈ l, c - 1 ≤ pr.1 ∧ pr.1 < 2 * c - 1) →
      ∀ s, GoodTree c s →
        GoodTree c (l.foldl (fun s pr => s.updateOne pr.1 pr.2) s) := by
    intro l
    induction l with
    | nil => exact fun _ s hs => hs
    | cons hd tl ih =>
        intro hl s hs
        simp only [List.foldl_cons]
        exact ih (fun pr hpr => hl pr (List.mem_cons_of_mem _ hpr)) _
          (updateOne_goodTree c s hc hs hd.1 hd.2
            (hl hd (List.mem_cons_self _ _)).1 (hl hd (List.mem_cons_self _ _)).2)
  apply key _ _ st hg
  intro pr hpr
  exact hvalid pr.1 (List.of_mem_zip (by simpa using hpr)).1

theorem addOne_goodTree (c : ℕ) (st : SumTree) (hc : 2 ≤ c) (hg : GoodTree c st)
    (d : Record) (p : ℚ) : GoodTree c (st.addOne d p) := by
  have hidx := hg.2.2.1
  have hmax := hg.1
  have hg1 : GoodTree c { st with data := st.data.set st.idx (some d) } :=
    ⟨hg.1, hg.2.1, hg.2.2.1, hg.2.2.2⟩
  have hg2 : GoodTree c (SumTree.update { st with data := st.data.set st.idx (some d) }
      [st.idx + st.maxSize - 1] [p]) := by
    apply update_goodTree c _ hc hg1
    intro i hi
    rw [List.mem_singleton] at hi
    subst hi
    constructor <;> omega
  simp only [SumTree.addOne]
  obtain ⟨hmax2, hlen2, hidx2, hinv2⟩ := hg2
  by_cases hw : (SumTree.update { st with data := st.data.set st.idx (some d) }
      [st.idx + st.maxSize - 1] [p]).idx + 1
      = (SumTree.update { st with data := st.data.set st.idx (some d) }
        [st.idx + st.maxSize - 1] [p]).maxSize
  · rw [if_pos hw]
    refine ⟨hmax2, hlen2, ?_, hinv2⟩
    show (0 : ℕ) < c
    omega
  · rw [if_neg hw]
    refine ⟨hmax2, hlen2, ?_, hinv2⟩
    show (SumTree.update { st with data := st.data.set st.idx (some d) }
        [st.idx + st.maxSize - 1] [p]).idx + 1 < c
    omega

theorem add_goodTree (c : ℕ) (st : SumTree) (hc : 2 ≤ c) (hg : GoodTree c st)
    (ds : List Record) (ps : List ℚ) : GoodTree c (st.add ds ps) := by
  simp only [SumTree.add]
  generalize (ds.zip ps) = l
  induction l generalizing st with
  | nil => exact hg
  | cons hd tl ih =>
      simp only [List.foldl_cons]
      exact ih _ (addOne_goodTree c st hc hg hd.1 hd.2)

theorem init_goodTree (c : ℕ) (hc : 2 ≤ c) : GoodTree c (SumTree.init c) := by
  refine ⟨rfl, by simp [SumTree.init], by show (0 : ℕ) < c; omega, ?_⟩
  intro j hj
  show (List.replicate (2 * c - 1) (0 : ℚ)).getD j 0
    = (List.replicate (2 * c - 1) (0 : ℚ)).getD (2 * j + 1) 0
      + (List.replicate (2 * c - 1) (0 : ℚ)).getD (2 * j + 2) 0
  rw [getD_replicate_zero, getD_replicate_zero, getD_replicate_zero]
  norm_num

theorem applySOp_goodTree (c : ℕ) (st : SumTree) (op : SOp) (hc : 2 ≤ c)
    (hg : GoodTree c st) (hv : ValidSOp c op) : GoodTree c (applySOp st op) := by
  cases op with
  | add ds ps => exact add_goodTree c st hc hg ds ps
  | update idxs ps => exact update_goodTree c st hc hg idxs ps hv

theorem foldl_applySOp_goodTree (c : ℕ) (hc : 2 ≤ c) (ops : List SOp)
    (hv : ∀ op ∈ ops, ValidSOp c op) :
    GoodTree c (ops.foldl applySOp (SumTree.init c)) := by
  have key : ∀ l : List SOp, (∀ op ∈ l, ValidSOp c op) → ∀ s, GoodTree c s →
      GoodTree c (l.foldl applySOp s) := by
    intro l
    induction l with
    | nil => exact fun _ s hs => hs
    | cons hd tl ih =>
        intro hl s hs
        simp only [List.foldl_cons]
        exact ih (fun op hop => hl op (List.mem_cons_of_mem _ hop)) _
          (applySOp_goodTree c s hd hc hs (hl hd (List.mem_cons_self _ _)))
  exact key ops hv _ (init_goodTree c hc)

theorem sum_child_pairs (t : ℕ → ℚ) : ∀ m : ℕ,
    (∑ j in Finset.range m, (t (2 * j + 1) + t (2 * j + 2)))
      = ∑ k in Finset.Ico 1 (2 * m + 1), t k := by
  intro m
  induction m with
  | zero => simp
  | succ n ih =>
      rw [Finset.sum_range_succ, ih,
        show 2 * (n + 1) + 1 = (2 * n + 1) + 1 + 1 from by omega]
      conv_rhs =>
        rw [Finset.sum_Ico_succ_top (by omega), Finset.sum_Ico_succ_top (by omega)]
      rw [show (2 * n + 1) + 1 = 2 * n + 2 from by omega]
      ring

theorem internalSums_root_eq_leafSum (tree : List ℚ) (c : ℕ) (hc : 2 ≤ c)
    (hlen : tree.length = 2 * c - 1) (hinv : InternalSums tree) :
    tree.getD 0 0 = ∑ k in Finset.range c, tree.getD (c - 1 + k) 0 := by
  have key : (∑ j in Finset.range (c - 1), tree.getD j 0)
      = ∑ k in Finset.Ico 1 (2 * (c - 1) + 1), tree.getD k 0 := by
    rw [← sum_child_pairs (fun k => tree.getD k 0) (c - 1)]
    apply Finset.sum_congr rfl
    intro j hj
    rw [Finset.mem_range] at hj
    exact hinv j (by omega)
  rw [show 2 * (c - 1) + 1 = 2 * c - 1 by omega] at key
  have hsplit : (∑ k in Finset.Ico 1 (c - 1), tree.getD k 0)
        + (∑ k in Finset.Ico (c - 1) (2 * c - 1), tree.getD k 0)
      = ∑ k in Finset.Ico 1 (2 * c - 1), tree.getD k 0 :=
    Finset.sum_Ico_consecutive _ (by omega) (by omega)
  have hbot : (∑ j in Finset.range (c - 1), tree.getD j 0)
      = tree.getD 0 0 + ∑ k in Finset.Ico 1 (c - 1), tree.getD k 0 := by
    rw [Finset.range_eq_Ico]
    exact Finset.sum_eq_sum_Ico_succ_bot (by omega) _
  have hIco : (∑ k in Finset.Ico (c - 1) (2 * c - 1), tree.getD k 0)
      = ∑ k in Finset.range c, tree.getD (c - 1 + k) 0 := by
    rw [Finset.sum_Ico_eq_sum_range,
      show (2 * c - 1) - (c - 1) = c from by omega]
  linarith [key, hsplit, hbot, hIco]

/-- Claim C1: starting from a fresh `SumTree` of capacity `C ≥ 2`, after
any sequence of `add` and `update` calls (each `update` index a valid leaf
index in `[C-1, 2C-1)`), every internal node stores the sum of its two
children, and `total_p = tree[0]` equals the sum of all `C` leaf
priorities.  (For `C = 1` no `add`/`update` call returns at all: the
propagation recurses forever, see `propagateAux`.) -/
theorem sumTree_invariant_after_ops (c : ℕ) (ops : List SOp) (hc : 2 ≤ c)
    (hv : ∀ op ∈ ops, ValidSOp c op) :
    InternalSums (ops.foldl applySOp (SumTree.init c)).tree ∧
      (ops.foldl applySOp (SumTree.init c)).totalP
        = ∑ k in Finset.range c,
            (ops.foldl applySOp (SumTree.init c)).tree.getD (c - 1 + k) 0 := by
  obtain ⟨hmax, hlen, hidx, hinv⟩ := foldl_applySOp_goodTree c hc ops hv
  exact ⟨hinv, internalSums_root_eq_leafSum _ c hc hlen hinv⟩

/-- Witness for claim C1: capacity 2, an `add` of two records followed by
an `update` of leaf 2. -/
theorem sumTree_invariant_after_ops_witness :
    InternalSums ([SOp.add [⟨0, 0, 0, 0, false, false⟩, ⟨1, 0, 0, 0, false, false⟩]
        [1, 2], SOp.update [2] [5]].foldl applySOp (SumTree.init 2)).tree ∧
      ([SOp.add [⟨0, 0, 0, 0, false, false⟩, ⟨1, 0, 0, 0, false, false⟩]
        [1, 2], SOp.update [2] [5]].foldl applySOp (SumTree.init 2)).totalP
        = ∑ k in Finset.range 2,
            ([SOp.add [⟨0, 0, 0, 0, false, false⟩, ⟨1, 0, 0, 0, false, false⟩]
              [1, 2], SOp.update [2] [5]].foldl applySOp (SumTree.init 2)).tree.getD
              (2 - 1 + k) 0 :=
  sumTree_invariant_after_ops 2
    [SOp.add [⟨0, 0, 0, 0, false, false⟩, ⟨1, 0, 0, 0, false, false⟩] [1, 2],
      SOp.update [2] [5]] (by norm_num)
    (by
      intro op hop
      rcases List.mem_cons.mp hop with rfl | hop2
      · exact trivial
      · rcases List.mem_cons.mp hop2 with rfl | h
        · intro i hi
          rw [List.mem_singleton] at hi
          subst hi
          constructor <;> norm_num
        · simp at h)

/-! Part: Weighted descent: cumulative-range correctness on tie-free paths
(claim C2) -/

theorem leavesAux_of_leaf (len fuel idx : ℕ) (h : len ≤ 2 * idx + 1) :
    leavesAux len fuel idx = [idx] := by
  cases fuel with
  | zero => rfl
  | succ n => simp [leavesAux, h]

theorem leafValsSum_append (tree : List ℚ) (l1 l2 : List ℕ) :
    leafValsSum tree (l1 ++ l2) = leafValsSum tree l1 + leafValsSum tree l2 := by
  simp [leafValsSum]

theorem leavesAux_sum (tree : List ℚ) (hinv : InternalSums tree) :
    ∀ fuel idx, tree.length ≤ fuel + idx + 1 → idx < tree.length →
      leafValsSum tree (leavesAux tree.length fuel idx) = tree.getD idx 0 := by
  intro fuel
  induction fuel with
  | zero =>
      intro idx h1 h2
      simp [leavesAux, leafValsSum]
  | succ n ih =>
      intro idx h1 h2
      by_cases hleaf : tree.length ≤ 2 * idx + 1
      · rw [leavesAux_of_leaf _ _ _ hleaf]
        simp [leafValsSum]
      · have hdefeq : leavesAux tree.length (n + 1) idx
            = leavesAux tree.length n (2 * idx + 1) ++ leavesAux tree.length n (2 * idx + 2) := by
          simp only [leavesAux, if_neg hleaf]
        rw [hdefeq, leafValsSum_append, ih (2 * idx + 1) (by omega) (by omega)]
        by_cases hr : 2 * idx + 2 < tree.length
        · rw [ih (2 * idx + 2) (by omega) hr]
          exact (hinv idx (by omega)).symm
        · rw [leavesAux_of_leaf _ _ _ (by omega)]
          have h0 : tree.getD (2 * idx + 2) 0 = 0 :=
            List.getD_eq_default _ _ (by omega)
          have hb := hinv idx (by omega)
          simp only [leafValsSum, List.map_cons, List.map_nil, List.sum_cons,
            List.sum_nil]
          rw [h0, hb, h0]
          ring

theorem retrieveAux_correct (tree : List ℚ) (choices : ℕ → Bool)
    (hinv : InternalSums tree) :
    ∀ fuel k idx (s : ℚ), tree.length ≤ fuel + idx + 1 → idx < tree.length →
      tieFreeAux tree fuel s idx = true → 0 ≤ s → s ≤ tree.getD idx 0 →
      ∃ pre post, leavesAux tree.length fuel idx
          = pre ++ retrieveAux tree choices fuel k s idx :: post ∧
        leafValsSum tree pre ≤ s ∧
        s ≤ leafValsSum tree pre + tree.getD (retrieveAux tree choices fuel k s idx) 0 := by
  intro fuel
  induction fuel with
  | zero =>
      intro k idx s h1 h2 htf hs0 hs1
      refine ⟨[], [], rfl, ?_, ?_⟩
      · simpa [leafValsSum] using hs0
      · simpa [leafValsSum] using hs1
  | succ n ih =>
      intro k idx s h1 h2 htf hs0 hs1
      by_cases hleaf : tree.length ≤ 2 * idx + 1
      · rw [retrieveAux_leaf _ _ _ _ _ _ hleaf, leavesAux_of_leaf _ _ _ hleaf]
        refine ⟨[], [], rfl, ?_, ?_⟩
        · simpa [leafValsSum] using hs0
        · simpa [leafValsSum] using hs1
      · have htie : ¬ tree.getD (2 * idx + 1) 0 = tree.getD (2 * idx + 2) 0 := by
          by_contra h
          rw [show tieFreeAux tree (n + 1) s idx = false from by
            simp only [tieFreeAux, if_neg hleaf, if_pos h]] at htf
          exact Bool.false_ne_true htf
        have hdefleaves : leavesAux tree.length (n + 1) idx
            = leavesAux tree.length n (2 * idx + 1)
              ++ leavesAux tree.length n (2 * idx + 2) := by
          simp only [leavesAux, if_neg hleaf]
        by_cases hsle : s ≤ tree.getD (2 * idx + 1) 0
        · have hret : retrieveAux tree choices (n + 1) k s idx
              = retrieveAux tree choices n (k + 1) s (2 * idx + 1) := by
            simp only [retrieveAux, if_neg hleaf, if_neg htie, if_pos hsle]
          have htf2 : tieFreeAux tree n s (2 * idx + 1) = true := by
            rw [show tieFreeAux tree (n + 1) s idx
                = tieFreeAux tree n s (2 * idx + 1) from by
              simp only [tieFreeAux, if_neg hleaf, if_neg htie, if_pos hsle]] at htf
            exact htf
          rw [hret, hdefleaves]
          obtain ⟨pre, post, hsplit, hlo, hhi⟩ :=
            ih (k + 1) (2 * idx + 1) s (by omega) (by omega) htf2 hs0 hsle
          refine ⟨pre, post ++ leavesAux tree.length n (2 * idx + 2), ?_, hlo, hhi⟩
          rw [hsplit]
          simp
        · have hlt : tree.getD (2 * idx + 1) 0 < s := lt_of_not_le hsle
          have hrlen : 2 * idx + 2 < tree.length := by
            by_contra hcon
            have h0 : tree.getD (2 * idx + 2) 0 = 0 :=
              List.getD_eq_default _ _ (by omega)
            have hb := hinv idx (by omega)
            rw [h0, add_zero] at hb
            rw [hb] at hs1
            exact hsle hs1
          have hret : retrieveAux tree choices (n + 1) k s idx
              = retrieveAux tree choices n (k + 1)
                  (s - tree.getD (2 * idx + 1) 0) (2 * idx + 2) := by
            simp only [retrieveAux, if_neg hleaf, if_neg htie, if_neg hsle]
          have htf2 : tieFreeAux tree n (s - tree.getD (2 * idx + 1) 0)
              (2 * idx + 2) = true := by
            rw [show tieFreeAux tree (n + 1) s idx
                = tieFreeAux tree n (s - tree.getD (2 * idx + 1) 0) (2 * idx + 2) from by
              simp only [tieFreeAux, if_neg hleaf, if_neg htie, if_neg hsle]] at htf
            exact htf
          have hb := hinv idx (by omega)
          obtain ⟨pre, post, hsplit, hlo, hhi⟩ :=
            ih (k + 1) (2 * idx + 2) (s - tree.getD (2 * idx + 1) 0) (by omega) hrlen
              htf2 (by linarith) (by linarith)
          rw [hret, hdefleaves]
          refine ⟨leavesAux tree.length n (2 * idx + 1) ++ pre, post, ?_, ?_, ?_⟩
          · rw [hsplit]
            simp
          · rw [leafValsSum_append,
              leavesAux_sum tree hinv n (2 * idx + 1) (by omega) (by omega)]
            linarith
          · rw [leafValsSum_append,
              leavesAux_sum tree hinv n (2 * idx + 1) (by omega) (by omega)]
            linarith

/-- Claim C2 (amended): on a tree with consistent internal sums, for a
query `s ∈ [0, total_p)` whose descent path meets no equal-sum pair of
children (`tieFree`), the weighted descent is deterministic (any
tie-break stream gives the same leaf) and returns a leaf whose cumulative
range contains `s` with closed right boundary: in the in-order (descent
order) list of leaves, the priorities `pre` before the returned leaf
satisfy `sum pre ≤ s ≤ sum pre + tree[leaf]` (the code descends left on
`s ≤ left`, so `s` equal to a boundary resolves to the leaf on its left —
the original half-open containment fails there, see the counterexample);
`get` returns that leaf's index, its stored priority and its data slot.
On paths with ties the returned leaf can fall outside the claimed range
entirely (see the claim C5 counterexample). -/
theorem retrieve_tieFree_correct (st : SumTree) (choices : ℕ → Bool) (s : ℚ)
    (hc : 1 ≤ st.maxSize) (hlen : st.tree.length = 2 * st.maxSize - 1)
    (hinv : InternalSums st.tree) (htf : tieFree st.tree s = true)
    (hs0 : 0 ≤ s) (hs1 : s < st.totalP) :
    st.get s choices
        = (retrieve st.tree choices s, st.tree.getD (retrieve st.tree choices s) 0,
            st.data.getD (retrieve st.tree choices s + 1 - st.maxSize) none) ∧
      ∃ pre post, leavesList st.tree = pre ++ retrieve st.tree choices s :: post ∧
        leafValsSum st.tree pre ≤ s ∧
        s ≤ leafValsSum st.tree pre + st.tree.getD (retrieve st.tree choices s) 0 := by
  refine ⟨rfl, ?_⟩
  exact retrieveAux_correct st.tree choices hinv st.tree.length 0 0 s
    (by omega) (by omega) htf hs0 (le_of_lt hs1)

/-- Witness for the amended claim C2: capacity 2, tree `[4, 1, 3]`
(leaf priorities 1 and 3), query `s = 2`. -/
theorem retrieve_tieFree_correct_witness :
    (SumTree.get ⟨2, [4, 1, 3], [some ⟨0, 0, 0, 0, false, false⟩,
          some ⟨1, 0, 0, 0, false, false⟩], 0, true⟩ 2 (fun _ => false)
        = (retrieve [(4 : ℚ), 1, 3] (fun _ => false) 2,
            List.getD [(4 : ℚ), 1, 3] (retrieve [(4 : ℚ), 1, 3] (fun _ => false) 2) 0,
            List.getD [some ⟨0, 0, 0, 0, false, false⟩,
              some ⟨1, 0, 0, 0, false, false⟩]
              (retrieve [(4 : ℚ), 1, 3] (fun _ => false) 2 + 1 - 2) none)) ∧
      ∃ pre post, leavesList [(4 : ℚ), 1, 3]
          = pre ++ retrieve [(4 : ℚ), 1, 3] (fun _ => false) 2 :: post ∧
        leafValsSum [(4 : ℚ), 1, 3] pre ≤ 2 ∧
        (2 : ℚ) ≤ leafValsSum [(4 : ℚ), 1, 3] pre
          + List.getD [(4 : ℚ), 1, 3] (retrieve [(4 : ℚ), 1, 3] (fun _ => false) 2) 0 :=
  retrieve_tieFree_correct
    ⟨2, [4, 1, 3], [some ⟨0, 0, 0, 0, false, false⟩,
      some ⟨1, 0, 0, 0, false, false⟩], 0, true⟩ (fun _ => false) 2
    (by norm_num) (by norm_num)
    (by
      intro j hj
      simp only [List.length_cons, List.length_nil] at hj
      have hj0 : j = 0 := by omega
      subst hj0
      norm_num [List.getD_cons_zero, List.getD_cons_succ])
    (by
      norm_num [tieFree, tieFreeAux_leaf, tieFreeAux_goLeft, tieFreeAux_goRight,
        List.getD_cons_zero, List.getD_cons_succ])
    (by norm_num)
    (by norm_num [SumTree.totalP, List.getD_cons_zero])

/-- Claim C2, counterexample: priorities `[1, 3]` on capacity 2 (tree
`[4, 1, 3]`), query `s = 1 ∈ [0, total_p)`, no tie anywhere on the path.
The code descends left on `s <= tree[left]`, so at the exact boundary
`s = 1` it returns leaf index 1 — the leaf holding priority 1 whose
cumulative range is `[0, 1)` — even though `s = 1` lies in the second
leaf's range `[1, 4)`: the returned leaf is not the leaf whose half-open
cumulative priority range contains `s`. -/
theorem retrieve_boundary_counterexample :
    InternalSums [(4 : ℚ), 1, 3] ∧
      tieFree [(4 : ℚ), 1, 3] 1 = true ∧
      (0 : ℚ) ≤ 1 ∧ (1 : ℚ) < List.getD [(4 : ℚ), 1, 3] 0 0 ∧
      retrieve [(4 : ℚ), 1, 3] (fun _ => false) 1 = 1 ∧
      ¬ cumRangeContains [(4 : ℚ), 1, 3] 2
        (retrieve [(4 : ℚ), 1, 3] (fun _ => false) 1) 1 := by
  have hret : retrieve [(4 : ℚ), 1, 3] (fun _ => false) 1 = 1 := by
    norm_num [retrieve, retrieveAux_leaf, retrieveAux_tie, retrieveAux_goLeft,
      retrieveAux_goRight, List.getD_cons_zero, List.getD_cons_succ]
  refine ⟨?_, ?_, by norm_num, by norm_num [List.getD_cons_zero], hret, ?_⟩
  · intro j hj
    simp only [List.length_cons, List.length_nil] at hj
    have hj0 : j = 0 := by omega
    subst hj0
    norm_num [List.getD_cons_zero, List.getD_cons_succ]
  · norm_num [tieFree, tieFreeAux_leaf, tieFreeAux_goLeft, tieFreeAux_goRight,
      List.getD_cons_zero, List.getD_cons_succ]
  · rw [hret]
    simp only [cumRangeContains]
    norm_num [List.getD_cons_zero, List.getD_cons_succ]

/-! Part: Importance-sampling weights (claim C6) -/

theorem foldl_max_le_acc (l : List ℝ) : ∀ a : ℝ, a ≤ l.foldl max a := by
  induction l with
  | nil => intro a; exact le_refl a
  | cons x xs ih => intro a; exact le_trans (le_max_left a x) (ih (max a x))

theorem mem_le_foldl_max (l : List ℝ) : ∀ (a x : ℝ), x ∈ l → x ≤ l.foldl max a := by
  induction l with
  | nil => intro a x hx; exact absurd hx (List.not_mem_nil x)
  | cons y ys ih =>
      intro a x hx
      rcases List.mem_cons.mp hx with rfl | hx2
      · exact le_trans (le_max_right a x) (foldl_max_le_acc ys _)
      · exact ih _ x hx2

theorem foldl_max_mem (l : List ℝ) : ∀ a : ℝ, l.foldl max a = a ∨ l.foldl max a ∈ l := by
  induction l with
  | nil => intro a; exact Or.inl rfl
  | cons y ys ih =>
      intro a
      simp only [List.foldl_cons]
      rcases ih (max a y) with h | h
      · rcases max_choice a y with hm | hm
        · left; rw [h, hm]
        · right; rw [h, hm]; exact List.mem_cons_self _ _
      · right; exact List.mem_cons_of_mem _ h

theorem foldl_max_le (l : List ℝ) :
    ∀ a c : ℝ, a ≤ c → (∀ x ∈ l, x ≤ c) → l.foldl max a ≤ c := by
  induction l with
  | nil => intro a c h _; exact h
  | cons y ys ih =>
      intro a c ha hl
      simp only [List.foldl_cons]
      exact ih _ c (max_le ha (hl y (List.mem_cons_self _ _)))
        (fun x hx => hl x (List.mem_cons_of_mem _ hx))

theorem listMax_mem (l : List ℝ) (hne : l ≠ []) : listMax l ∈ l := by
  cases l with
  | nil => exact absurd rfl hne
  | cons a as =>
      simp only [listMax]
      rcases foldl_max_mem as a with h | h
      · rw [h]; exact List.mem_cons_self _ _
      · exact List.mem_cons_of_mem _ h

theorem le_listMax (l : List ℝ) (x : ℝ) (hx : x ∈ l) : x ≤ listMax l := by
  cases l with
  | nil => exact absurd hx (List.not_mem_nil x)
  | cons a as =>
      simp only [listMax]
      rcases List.mem_cons.mp hx with rfl | h
      · exact foldl_max_le_acc as x
      · exact mem_le_foldl_max as a x h

theorem listMax_eq_of (l : List ℝ) (c : ℝ) (hc : c ∈ l) (hle : ∀ x ∈ l, x ≤ c) :
    listMax l = c := by
  apply le_antisymm
  · cases l with
    | nil => exact absurd hc (List.not_mem_nil c)
    | cons a as =>
        simp only [listMax]
        exact foldl_max_le as a c (hle a (List.mem_cons_self _ _))
          (fun x hx => hle x (List.mem_cons_of_mem _ hx))
  · exact le_listMax l c hc

/-- Claim C6 (amended): for a batch actually returned by the prioritized
`get` — so `n ≥ 1` and every drawn slot was written — *provided every
drawn priority is positive* (and the buffer is nonempty with positive
total priority), the normalized importance weights
`(size * p_i / total_p) ** (-beta())` divided by their batch maximum
satisfy `max(weights) = 1` and every weight lies in `(0, 1]`.  Without
the positivity proviso the property fails: a zero-priority leaf can be
drawn, see the counterexample. -/
theorem prioritized_get_weights_normalized (m : PrioritizedReplayMemory)
    (draws : List (ℚ × (ℕ → Bool))) (b : PBatch)
    (hget : m.get draws = some b)
    (hpos : ∀ p ∈ b.priorities, 0 < p)
    (hsize : 0 < m.tree.size) (htot : 0 < m.tree.totalP) :
    listMax b.weights = 1 ∧ ∀ w ∈ b.weights, 0 < w ∧ w ≤ 1 := by
  simp only [PrioritizedReplayMemory.get] at hget
  by_cases h0 : draws.length = 0
  · rw [if_pos h0] at hget
    exact absurd hget (by simp)
  · rw [if_neg h0] at hget
    by_cases h1 : (draws.map (fun d => m.tree.get d.1 d.2)).any (fun r => r.2.2.isNone)
    · rw [if_pos h1] at hget
      exact absurd hget (by simp)
    · rw [if_neg h1] at hget
      have hb := (Option.some.inj hget).symm
      subst hb
      have hpos2 : ∀ p ∈ (draws.map (fun d => m.tree.get d.1 d.2)).map
          (fun r => r.2.1), 0 < p := hpos
      have hrawpos : ∀ v ∈ ((draws.map (fun d => m.tree.get d.1 d.2)).map
            (fun r => r.2.1)).map
          (fun p => Real.rpow ((m.tree.size : ℝ) * ((p / m.tree.totalP : ℚ) : ℝ))
            (-(m.beta ()))), 0 < v := by
        intro v hv
        obtain ⟨p, hp, rfl⟩ := List.mem_map.mp hv
        apply Real.rpow_pos_of_pos
        apply mul_pos
        · exact_mod_cast hsize
        · exact_mod_cast div_pos (hpos2 p hp) htot
      have hrawne : ((draws.map (fun d => m.tree.get d.1 d.2)).map
            (fun r => r.2.1)).map
          (fun p => Real.rpow ((m.tree.size : ℝ) * ((p / m.tree.totalP : ℚ) : ℝ))
            (-(m.beta ()))) ≠ [] := by
        intro hcon
        apply h0
        simpa using congrArg List.length hcon
      have hwmaxpos : 0 < listMax (((draws.map (fun d => m.tree.get d.1 d.2)).map
            (fun r => r.2.1)).map
          (fun p => Real.rpow ((m.tree.size : ℝ) * ((p / m.tree.totalP : ℚ) : ℝ))
            (-(m.beta ())))) := by
        exact hrawpos _ (listMax_mem _ hrawne)
      have hle1 : ∀ w ∈ (((draws.map (fun d => m.tree.get d.1 d.2)).map
            (fun r => r.2.1)).map
          (fun p => Real.rpow ((m.tree.size : ℝ) * ((p / m.tree.totalP : ℚ) : ℝ))
            (-(m.beta ())))).map
          (fun v => v / listMax (((draws.map (fun d => m.tree.get d.1 d.2)).map
            (fun r => r.2.1)).map
            (fun p => Real.rpow ((m.tree.size : ℝ) * ((p / m.tree.totalP : ℚ) : ℝ))
              (-(m.beta ()))))), 0 < w ∧ w ≤ 1 := by
        intro w hw
        obtain ⟨v, hv, rfl⟩ := List.mem_map.mp hw
        constructor
        · exact div_pos (hrawpos v hv) hwmaxpos
        · exact (div_le_one hwmaxpos).mpr (le_listMax _ v hv)
      refine ⟨?_, hle1⟩
      apply listMax_eq_of
      · apply List.mem_map.mpr
        refine ⟨listMax _, listMax_mem _ hrawne, ?_⟩
        exact div_self (ne_of_gt hwmaxpos)
      · exact fun x hx => (hle1 x hx).2

/-- Witness for the amended claim C6: a one-slot buffer holding one
record with priority 5, `beta() = 1`, one draw at `s = 0`. -/
theorem prioritized_get_weights_normalized_witness :
    listMax (PBatch.mk [some ⟨0, 0, 0, 0, false, false⟩] [0] [5] [1]).weights = 1 ∧
      ∀ w ∈ (PBatch.mk [some ⟨0, 0, 0, 0, false, false⟩] [0] [5] [1]).weights,
        0 < w ∧ w ≤ 1 :=
  prioritized_get_weights_normalized
    ⟨0, 1, 1, fun _ => 1, 1, ⟨1, [5], [some ⟨0, 0, 0, 0, false, false⟩], 0, true⟩⟩
    [((0 : ℚ), fun _ => false)]
    (PBatch.mk [some ⟨0, 0, 0, 0, false, false⟩] [0] [5] [1])
    (by
      norm_num [PrioritizedReplayMemory.get, SumTree.get, SumTree.totalP, SumTree.size,
        retrieve, retrieveAux_leaf, listMax, List.getD_cons_zero, Real.one_rpow])
    (by
      intro p hp
      rw [List.mem_singleton] at hp
      subst hp
      norm_num)
    (by norm_num [SumTree.size])
    (by norm_num [SumTree.totalP, List.getD_cons_zero])

/-- Claim C6, counterexample: capacity 2 with stored priorities `[0, 1]`
(both records written), `beta() = 1`, batch size `n = 1`, stratified draw
`s = 0 ∈ [0 * segment, 1 * segment)`.  The descent deterministically ends
at the zero-priority leaf (at `s = 0` the code compares `0 <= tree[left] = 0`
and goes left), so the sampled priority is `0`; the raw weight
`(size * 0 / total_p) ** (-1)` is the power of a zero base (a division by
zero in the floating-point code, `0` under the `Real.rpow` convention),
and the returned weight list is `[0]`: not every weight lies in `(0, 1]`
and the batch maximum is not `1`. -/
theorem prioritized_get_zero_priority_weight_counterexample :
    PrioritizedReplayMemory.get
        ⟨0, 2, 1, fun _ => 1, 1, ⟨2, [1, 0, 1], [some ⟨0, 0, 0, 0, false, false⟩,
          some ⟨1, 0, 0, 0, false, false⟩], 0, true⟩⟩
        [((0 : ℚ), fun _ => false)]
      = some (PBatch.mk [some ⟨0, 0, 0, 0, false, false⟩] [1] [0] [0]) ∧
      0 < (SumTree.mk 2 [1, 0, 1] [some ⟨0, 0, 0, 0, false, false⟩,
        some ⟨1, 0, 0, 0, false, false⟩] 0 true).size ∧
      0 < (SumTree.mk 2 [1, 0, 1] [some ⟨0, 0, 0, 0, false, false⟩,
        some ⟨1, 0, 0, 0, false, false⟩] 0 true).totalP ∧
      ¬ (listMax (PBatch.mk [some ⟨0, 0, 0, 0, false, false⟩] [1] [0] [0]).weights = 1 ∧
        ∀ w ∈ (PBatch.mk [some ⟨0, 0, 0, 0, false, false⟩] [1] [0] [0]).weights,
          0 < w ∧ w ≤ 1) := by
  refine ⟨?_, by norm_num [SumTree.size], by norm_num [SumTree.totalP, List.getD_cons_zero], ?_⟩
  · norm_num [PrioritizedReplayMemory.get, SumTree.get, SumTree.totalP, SumTree.size,
      retrieve, retrieveAux_leaf, retrieveAux_goLeft, retrieveAux_goRight, listMax,
      List.getD_cons_zero, List.getD_cons_succ, Real.zero_rpow]
  · intro hcon
    exact absurd (hcon.2 0 (List.mem_singleton.mpr rfl)).1 (lt_irrefl 0)
